import Mathlib

/-!
Shallow embedding of the herring ENA client (src/ena.rs) and the per-study
aggregation performed by list_studies (src/main.rs), together with proofs of
the behavioural claims about retry policy, date windowing, deduplication and
aggregation.

Machine integers are modelled as Nat with explicit saturation/truncation where
the source saturates (u128 saturating_add) or truncates (usize as u32).
Rust's f64 gigabase arithmetic is modelled over the rationals. Network
responses are supplied by explicit oracle arguments.
-/

namespace Herring

/-- One ENA read_run row, as decoded in src/ena.rs (struct RunRecord):
every field except study_accession is optional. -/
structure RunRecord where
  run_accession : Option String
  study_accession : String
  sample_accession : Option String
  base_count : Option String
  instrument_model : Option String
  library_strategy : Option String
  scientific_name : Option String
  first_public : Option String
  study_title : Option String
  deriving DecidableEq

/-- ASCII lowercase of one character (Rust to_ascii_lowercase). -/
def asciiLowerChar (c : Char) : Char :=
  if 'A' ≤ c ∧ c ≤ 'Z' then Char.ofNat (c.toNat + 32) else c

/-- ASCII uppercase of one character (Rust to_ascii_uppercase). -/
def asciiUpperChar (c : Char) : Char :=
  if 'a' ≤ c ∧ c ≤ 'z' then Char.ofNat (c.toNat - 32) else c

/-- ASCII-lowercased string. -/
def strLower (s : String) : String := s.map asciiLowerChar

/-- ASCII-uppercased string. -/
def strUpper (s : String) : String := s.map asciiUpperChar

/-- Boolean test: pat is a leading segment of hay. -/
def listPrefixB : List Char → List Char → Bool
  | [], _ => true
  | _ :: _, [] => false
  | a :: as, b :: bs => a = b && listPrefixB as bs

/-- Boolean test: pat occurs contiguously inside hay (Rust str::contains). -/
def listInfixB (pat : List Char) : List Char → Bool
  | [] => pat.isEmpty
  | c :: t => listPrefixB pat (c :: t) || listInfixB pat t

/-- String containment test used by map_platform. -/
def strContainsSub (hay pat : String) : Bool := listInfixB pat.toList hay.toList

/-- map_platform from src/ena.rs: normalized ONT platform label from the raw
instrument model. -/
def mapPlatform (model : Option String) : String :=
  match model with
  | some m0 =>
    let m := strLower m0
    if strContainsSub m "prometh" then "PromethION"
    else if strContainsSub m "gridion" then "GridION"
    else if strContainsSub m "minion" || strContainsSub m "flongle" then "MinION"
    else if strContainsSub m "ont" then "Oxford Nanopore"
    else "Oxford Nanopore"
  | none => "Oxford Nanopore"

/-- map_strategy from src/ena.rs: coarse sequencing type from the ENA
library_strategy value. -/
def mapStrategy (s : String) : String :=
  let u := strUpper s
  if u = "RNA-SEQ" ∨ u = "TRANSCRIPTOME SEQUENCING" ∨ u = "MRNA-SEQ" ∨ u = "CDNA" then
    "transcriptome"
  else if u = "METAGENOME" ∨ u = "METATRANSCRIPTOME" then "metagenome"
  else if u = "WGS" ∨ u = "WGA" ∨ u = "HI-C" ∨ u = "AMPLICON" ∨ u = "AMPLICON SEQUENCING" then
    "genome"
  else if u = "OTHER" then "other"
  else strLower u

/-- Rust u64::from_str on the base_count field: an optional leading plus sign,
then one or more ASCII digits, value below 2^64; anything else fails. -/
def parseU64 (s : String) : Option Nat :=
  let cs := s.toList
  let ds := match cs with
    | '+' :: t => t
    | _ => cs
  if ds = [] then none
  else if ds.all (fun c => c.isDigit) then
    let v := ds.foldl (fun a c => a * 10 + (c.toNat - 48)) 0
    if v < 2 ^ 64 then some v else none
  else none

/-- Largest u128 value, the saturation bound of Agg.bases. -/
def U128MAX : Nat := 2 ^ 128 - 1

/-- u128 saturating_add. -/
def satAdd (a b : Nat) : Nat := min (a + b) U128MAX

/-- Per-study accumulator from list_studies (struct Agg in src/main.rs).
BTreeSet fields are modelled as Finset String; u128 bases as Nat with
explicit saturation. -/
structure Agg where
  plats : Finset String
  types : Finset String
  species : Finset String
  samples : Finset String
  bases : Nat
  title : String
  release : String
  deriving DecidableEq

/-- Default (empty) accumulator, as produced by or_default. -/
def defaultAgg : Agg := ⟨∅, ∅, ∅, ∅, 0, "", ""⟩

/-- Fold one RunRecord into a study's accumulator: the body of the
per-row loop in list_studies (src/main.rs lines 148-161). -/
def updateAgg (a : Agg) (r : RunRecord) : Agg :=
  { plats := insert (mapPlatform r.instrument_model) a.plats
    types :=
      match r.library_strategy with
      | some st => insert (mapStrategy st) a.types
      | none => a.types
    species :=
      match r.scientific_name with
      | some sp => if sp = "" then a.species else insert sp a.species
      | none => a.species
    samples :=
      match r.sample_accession with
      | some sa => if sa = "" then a.samples else insert sa a.samples
      | none => a.samples
    bases :=
      match r.base_count with
      | some bc =>
        match parseU64 bc with
        | some v => satAdd a.bases v
        | none => a.bases
      | none => a.bases
    title :=
      match r.study_title with
      | some t => if t ≠ "" ∧ a.title = "" then t else a.title
      | none => a.title
    release :=
      match r.first_public with
      | some fp => if a.release = "" ∨ fp < a.release then fp else a.release
      | none => a.release }

/-- One step of the entry-or-default map update: the BTreeMap by_study is
modelled as a function from study accession to optional accumulator. -/
def studyStep (m : String → Option Agg) (r : RunRecord) : String → Option Agg :=
  fun k =>
    if k = r.study_accession then some (updateAgg ((m k).getD defaultAgg) r) else m k

/-- The whole aggregation loop of list_studies: fold every row into the
study map. -/
def foldStudies (rows : List RunRecord) : String → Option Agg :=
  rows.foldl studyStep (fun _ => none)

/-- Optional-accumulator version of updateAgg, used to relate the map fold to
a per-study fold. -/
def optStep (oa : Option Agg) (r : RunRecord) : Option Agg :=
  some (updateAgg (oa.getD defaultAgg) r)

theorem foldStudies_aux (rows : List RunRecord) (m : String → Option Agg) (k : String) :
    (rows.foldl studyStep m) k =
      (rows.filter (fun r => decide (r.study_accession = k))).foldl optStep (m k) := by
  induction rows generalizing m with
  | nil => rfl
  | cons r rs ih =>
    simp only [List.foldl_cons, List.filter_cons]
    by_cases h : r.study_accession = k
    · have hm : studyStep m r k = optStep (m k) r := by
        simp [studyStep, optStep, h]
      simp [h, ih, hm]
    · have hd : decide (r.study_accession = k) = false := by simpa using h
      rw [hd]
      simp only [Bool.false_eq_true, if_false, ih]
      have hm : studyStep m r k = m k := by
        simp only [studyStep]
        rw [if_neg]
        intro hk
        exact h hk.symm
      rw [hm]

/-- The rows of the stream that belong to study k. -/
def rowsOfStudy (rows : List RunRecord) (k : String) : List RunRecord :=
  rows.filter (fun r => decide (r.study_accession = k))

theorem foldStudies_eq (rows : List RunRecord) (k : String) :
    foldStudies rows k = (rowsOfStudy rows k).foldl optStep none := by
  simpa [rowsOfStudy] using foldStudies_aux rows (fun _ => none) k

theorem optStep_foldl (l : List RunRecord) (a : Agg) :
    l.foldl optStep (some a) = some (l.foldl updateAgg a) := by
  induction l generalizing a with
  | nil => rfl
  | cons r rs ih => simp [List.foldl_cons, optStep, ih]

theorem foldStudies_eq_some (rows : List RunRecord) (k : String) (r : RunRecord)
    (l : List RunRecord) (hrl : rowsOfStudy rows k = r :: l) :
    foldStudies rows k = some (l.foldl updateAgg (updateAgg defaultAgg r)) := by
  rw [foldStudies_eq, hrl]
  simp only [List.foldl_cons, optStep, Option.getD_none]
  rw [optStep_foldl]

theorem updateAgg_species (a : Agg) (r : RunRecord) :
    (updateAgg a r).species =
      match r.scientific_name with
      | some sp => if sp = "" then a.species else insert sp a.species
      | none => a.species := rfl

theorem updateAgg_samples (a : Agg) (r : RunRecord) :
    (updateAgg a r).samples =
      match r.sample_accession with
      | some sa => if sa = "" then a.samples else insert sa a.samples
      | none => a.samples := rfl

theorem fold_species_mem (l : List RunRecord) (a : Agg) (x : String) :
    x ∈ (l.foldl updateAgg a).species ↔
      x ∈ a.species ∨ (x ≠ "" ∧ ∃ r ∈ l, r.scientific_name = some x) := by
  induction l generalizing a with
  | nil => simp
  | cons r rs ih =>
    simp only [List.foldl_cons, ih, List.mem_cons, updateAgg_species]
    cases hs : r.scientific_name with
    | none =>
      constructor
      · rintro (hx | ⟨hne, r', hr', hsome⟩)
        · exact Or.inl hx
        · exact Or.inr ⟨hne, r', Or.inr hr', hsome⟩
      · rintro (hx | ⟨hne, r', hr', hsome⟩)
        · exact Or.inl hx
        · rcases hr' with h1 | h1
          · subst h1; rw [hs] at hsome; cases hsome
          · exact Or.inr ⟨hne, r', h1, hsome⟩
    | some sp =>
      by_cases he : sp = ""
      · subst he
        simp only [if_pos rfl]
        constructor
        · rintro (hx | ⟨hne, r', hr', hsome⟩)
          · exact Or.inl hx
          · exact Or.inr ⟨hne, r', Or.inr hr', hsome⟩
        · rintro (hx | ⟨hne, r', hr', hsome⟩)
          · exact Or.inl hx
          · rcases hr' with h1 | h1
            · subst h1; rw [hs] at hsome
              injection hsome with h2
              exact absurd h2.symm hne
            · exact Or.inr ⟨hne, r', h1, hsome⟩
      · simp only [if_neg he]
        constructor
        · rintro (hx | ⟨hne, r', hr', hsome⟩)
          · rcases Finset.mem_insert.mp hx with h | h
            · subst h; exact Or.inr ⟨he, r, Or.inl rfl, hs⟩
            · exact Or.inl h
          · exact Or.inr ⟨hne, r', Or.inr hr', hsome⟩
        · rintro (hx | ⟨hne, r', hr', hsome⟩)
          · exact Or.inl (Finset.mem_insert_of_mem hx)
          · rcases hr' with h1 | h1
            · subst h1; rw [hs] at hsome
              injection hsome with h2
              exact Or.inl (Finset.mem_insert.mpr (Or.inl h2.symm))
            · exact Or.inr ⟨hne, r', h1, hsome⟩

theorem fold_samples_mem (l : List RunRecord) (a : Agg) (x : String) :
    x ∈ (l.foldl updateAgg a).samples ↔
      x ∈ a.samples ∨ (x ≠ "" ∧ ∃ r ∈ l, r.sample_accession = some x) := by
  induction l generalizing a with
  | nil => simp
  | cons r rs ih =>
    simp only [List.foldl_cons, ih, List.mem_cons, updateAgg_samples]
    cases hs : r.sample_accession with
    | none =>
      constructor
      · rintro (hx | ⟨hne, r', hr', hsome⟩)
        · exact Or.inl hx
        · exact Or.inr ⟨hne, r', Or.inr hr', hsome⟩
      · rintro (hx | ⟨hne, r', hr', hsome⟩)
        · exact Or.inl hx
        · rcases hr' with h1 | h1
          · subst h1; rw [hs] at hsome; cases hsome
          · exact Or.inr ⟨hne, r', h1, hsome⟩
    | some sa =>
      by_cases he : sa = ""
      · subst he
        simp only [if_pos rfl]
        constructor
        · rintro (hx | ⟨hne, r', hr', hsome⟩)
          · exact Or.inl hx
          · exact Or.inr ⟨hne, r', Or.inr hr', hsome⟩
        · rintro (hx | ⟨hne, r', hr', hsome⟩)
          · exact Or.inl hx
          · rcases hr' with h1 | h1
            · subst h1; rw [hs] at hsome
              injection hsome with h2
              exact absurd h2.symm hne
            · exact Or.inr ⟨hne, r', h1, hsome⟩
      · simp only [if_neg he]
        constructor
        · rintro (hx | ⟨hne, r', hr', hsome⟩)
          · rcases Finset.mem_insert.mp hx with h | h
            · subst h; exact Or.inr ⟨he, r, Or.inl rfl, hs⟩
            · exact Or.inl h
          · exact Or.inr ⟨hne, r', Or.inr hr', hsome⟩
        · rintro (hx | ⟨hne, r', hr', hsome⟩)
          · exact Or.inl (Finset.mem_insert_of_mem hx)
          · rcases hr' with h1 | h1
            · subst h1; rw [hs] at hsome
              injection hsome with h2
              exact Or.inl (Finset.mem_insert.mpr (Or.inl h2.symm))
            · exact Or.inr ⟨hne, r', h1, hsome⟩

/-- The release-date update step of the aggregation loop, on its own. -/
def relStep (rel fp : String) : String :=
  if rel = "" ∨ fp < rel then fp else rel

theorem fold_release (l : List RunRecord) (a : Agg) :
    (l.foldl updateAgg a).release =
      (l.filterMap (fun r => r.first_public)).foldl relStep a.release := by
  induction l generalizing a with
  | nil => rfl
  | cons r rs ih =>
    simp only [List.foldl_cons, List.filterMap_cons, ih]
    cases hs : r.first_public with
    | none =>
      have : (updateAgg a r).release = a.release := by simp [updateAgg, hs]
      rw [this]
    | some fp =>
      have : (updateAgg a r).release = relStep a.release fp := by
        simp [updateAgg, hs, relStep]
      rw [this]
      simp

/-- The title update step of the aggregation loop, on its own. -/
def titleStep (tit t : String) : String :=
  if t ≠ "" ∧ tit = "" then t else tit

theorem fold_title (l : List RunRecord) (a : Agg) :
    (l.foldl updateAgg a).title =
      (l.filterMap (fun r => r.study_title)).foldl titleStep a.title := by
  induction l generalizing a with
  | nil => rfl
  | cons r rs ih =>
    simp only [List.foldl_cons, List.filterMap_cons, ih]
    cases hs : r.study_title with
    | none =>
      have : (updateAgg a r).title = a.title := by simp [updateAgg, hs]
      rw [this]
    | some t =>
      have : (updateAgg a r).title = titleStep a.title t := by
        simp [updateAgg, hs, titleStep]
      rw [this]
      simp

/-- Parsed base-count contribution of one row. -/
def rowBases (r : RunRecord) : Option Nat := r.base_count.bind parseU64

theorem satAdd_assoc_sum (b v s : Nat) :
    min (min (b + v) U128MAX + s) U128MAX = min (b + (v + s)) U128MAX := by
  omega

theorem updateAgg_bases (a : Agg) (r : RunRecord) :
    (updateAgg a r).bases =
      match rowBases r with
      | some v => satAdd a.bases v
      | none => a.bases := by
  simp only [updateAgg, rowBases]
  cases r.base_count with
  | none => rfl
  | some bc => cases parseU64 bc <;> rfl

theorem fold_bases (l : List RunRecord) (a : Agg) (ha : a.bases ≤ U128MAX) :
    (l.foldl updateAgg a).bases =
      min (a.bases + (l.filterMap rowBases).sum) U128MAX := by
  induction l generalizing a with
  | nil =>
    simp only [List.foldl_nil, List.filterMap_nil, List.sum_nil, Nat.add_zero]
    omega
  | cons r rs ih =>
    simp only [List.foldl_cons, List.filterMap_cons]
    cases hv : rowBases r with
    | none =>
      have hb : (updateAgg a r).bases = a.bases := by rw [updateAgg_bases, hv]
      have := ih (updateAgg a r) (by rw [hb]; exact ha)
      rw [this, hb]
    | some v =>
      have hb : (updateAgg a r).bases = satAdd a.bases v := by rw [updateAgg_bases, hv]
      have hle : (updateAgg a r).bases ≤ U128MAX := by
        rw [hb]; exact Nat.min_le_right _ _
      have := ih (updateAgg a r) hle
      rw [this, hb]
      simp only [hv, satAdd, List.sum_cons]
      omega

theorem relStep_ne (rel f : String) (hf : f ≠ "") : relStep rel f ≠ "" := by
  unfold relStep
  split
  · exact hf
  · rename_i h
    push_neg at h
    exact fun hr => h.1 hr

theorem relStep_eq_min (cur d : String) (hc : cur ≠ "") : relStep cur d = min cur d := by
  unfold relStep
  by_cases hlt : d < cur
  · rw [if_pos (Or.inr hlt), min_eq_right (le_of_lt hlt)]
  · have hle : cur ≤ d := le_of_not_lt hlt
    rw [if_neg, min_eq_left hle]
    push_neg
    exact ⟨hc, hlt⟩

theorem relFold_min (ds : List String) (cur : String) (hc : cur ≠ "")
    (hd : ∀ d ∈ ds, d ≠ "") :
    ds.foldl relStep cur ∈ cur :: ds ∧ ∀ d ∈ cur :: ds, ds.foldl relStep cur ≤ d := by
  induction ds generalizing cur with
  | nil => simp
  | cons d ds ih =>
    have hdne : d ≠ "" := hd d (List.mem_cons_self d ds)
    have hstep : relStep cur d = min cur d := relStep_eq_min cur d hc
    have hcur' : relStep cur d ≠ "" := relStep_ne cur d hdne
    have hd' : ∀ e ∈ ds, e ≠ "" := fun e he => hd e (List.mem_cons_of_mem d he)
    obtain ⟨hmem, hmin⟩ := ih (relStep cur d) hcur' hd'
    simp only [List.foldl_cons]
    constructor
    · rcases List.mem_cons.mp hmem with h | h
      · rw [h, hstep]
        rcases min_choice cur d with h2 | h2
        · rw [h2]; exact List.mem_cons_self cur (d :: ds)
        · rw [h2]; exact List.mem_cons_of_mem cur (List.mem_cons_self d ds)
      · exact List.mem_cons_of_mem cur (List.mem_cons_of_mem d h)
    · intro e he
      have hfold : ds.foldl relStep (relStep cur d) ≤ relStep cur d :=
        hmin _ (List.mem_cons_self _ _)
      rcases List.mem_cons.mp he with h | h
      · rw [h]
        exact le_trans hfold (by rw [hstep]; exact min_le_left cur d)
      · rcases List.mem_cons.mp h with h2 | h2
        · rw [h2]
          exact le_trans hfold (by rw [hstep]; exact min_le_right cur d)
        · exact hmin e (List.mem_cons_of_mem _ h2)

theorem release_min (ds : List String) (hne : ds ≠ []) (hd : ∀ d ∈ ds, d ≠ "") :
    ds.foldl relStep "" ∈ ds ∧ ∀ d ∈ ds, ds.foldl relStep "" ≤ d := by
  cases ds with
  | nil => exact absurd rfl hne
  | cons d ds =>
    have hdne : d ≠ "" := hd d (List.mem_cons_self d ds)
    have hfirst : relStep "" d = d := by simp [relStep]
    have hd' : ∀ e ∈ ds, e ≠ "" := fun e he => hd e (List.mem_cons_of_mem d he)
    obtain ⟨hmem, hmin⟩ := relFold_min ds d hdne hd'
    simp only [List.foldl_cons, hfirst]
    exact ⟨hmem, hmin⟩

/-- The species names kept at finalization (src/main.rs lines 168-171): the
BTreeSet is iterated in ascending order and truncated to 5 entries. -/
def speciesRetained (a : Agg) : List String :=
  let v := a.species.sort (· ≤ ·)
  if 5 < v.length then v.take 5 else v

/-- Comma-space join used for the display fields. -/
def joinComma (l : List String) : String := String.intercalate ", " l

/-- Round to one decimal place, modelling (gb * 10.0).round() / 10.0 over
the rationals. -/
def roundTenth (q : Rat) : Rat := ((round (q * 10) : Int) : Rat) / 10

/-- One output row (struct Row in src/main.rs), after finalizing a study's
accumulator; the f64 gigabase value is modelled as a rational and the
usize-to-u32 cast of the biosample count as truncation mod 2^32. -/
structure Row where
  acc : String
  release : String
  platform : String
  seq_type : String
  species : String
  biosamples : Nat
  gigabases_num : Rat
  title : String
  deriving DecidableEq

/-- Finalization of one study accumulator (src/main.rs lines 165-178). -/
def finalizeAgg (acc : String) (a : Agg) : Row :=
  { acc := acc
    release := a.release
    platform := joinComma (a.plats.sort (· ≤ ·))
    seq_type := joinComma (a.types.sort (· ≤ ·))
    species := joinComma (speciesRetained a)
    biosamples := a.samples.card % 2 ^ 32
    gigabases_num := roundTenth ((a.bases : Rat) / 1000000000)
    title := a.title }

/-- The field list requested from the ENA search endpoint
(src/ena.rs lines 183-193 and 248-251). -/
def enaFields : List String :=
  ["run_accession", "study_accession", "sample_accession", "base_count",
   "instrument_model", "library_strategy", "scientific_name", "first_public",
   "study_title"]

/-! Date windowing. Calendar dates are modelled as integers (days); the
windowing loops of fetch_runs_since and fetch_runs_between only add day
counts and compare dates, so this is faithful. -/

/-- The 14-day sub-windows covering the closed range from s to e: the loop
while s <= e { e' = min(s+13, e); ...; s = e' + 1 } of src/ena.rs
(lines 213-235 and 257-277). -/
def windows (s e : Int) : List (Int × Int) :=
  if h : s ≤ e then
    (s, min (s + 13) e) :: windows (min (s + 13) e + 1) e
  else []
  termination_by (e + 1 - s).toNat
  decreasing_by
    simp_wf
    omega

theorem windows_cons (s e : Int) (h : s ≤ e) :
    windows s e = (s, min (s + 13) e) :: windows (min (s + 13) e + 1) e := by
  rw [windows, dif_pos h]

theorem windows_nil (s e : Int) (h : ¬ s ≤ e) : windows s e = [] := by
  rw [windows, dif_neg h]

/-! Retrying transport. The five-attempt loop of request_with_retries is
modelled over an oracle giving each attempt's outcome; sleeps are collected
in milliseconds. -/

/-- Outcome of one HTTP attempt: a response with a status code and optional
parsed Retry-After header (seconds), or a transport-level error. -/
inductive Attempt where
  | ok (status : Nat) (retryAfter : Option Nat)
  | fail
  deriving DecidableEq

/-- reqwest StatusCode::is_success: 2xx. -/
def isSuccess (st : Nat) : Bool := 200 ≤ st && st < 300

/-- The retryable statuses of request_with_retries (src/ena.rs line 113). -/
def isRetryable (st : Nat) : Bool :=
  st = 429 || st = 500 || st = 502 || st = 503 || st = 504

/-- The body of request_with_retries (src/ena.rs lines 102-137): fuel counts
the loop iterations left (5 at entry, so fuel = 1 exactly on the attempt
numbered 4), delay is the current backoff in milliseconds. Returns the
final outcome (a response status, or an error after the last transport
failure) together with the list of sleeps performed, in milliseconds. -/
def requestGo (o : Nat → Attempt) (fuel attempt delay : Nat) :
    Except Unit Nat × List Nat :=
  match fuel with
  | 0 => (Except.error (), [])
  | fuel' + 1 =>
    match o attempt with
    | .ok st ra =>
      if isSuccess st then (Except.ok st, [])
      else if isRetryable st then
        if attempt = 4 then (Except.ok st, [])
        else
          match ra with
          | some secs =>
            let p := requestGo o fuel' (attempt + 1) delay
            (p.1, secs * 1000 :: p.2)
          | none =>
            let p := requestGo o fuel' (attempt + 1) (delay * 2)
            (p.1, delay :: p.2)
      else (Except.ok st, [])
    | .fail =>
      if attempt = 4 then (Except.error (), [])
      else
        let p := requestGo o fuel' (attempt + 1) (delay * 2)
        (p.1, delay :: p.2)

/-- request_with_retries: five attempts, starting delay 400ms. -/
def requestWithRetries (o : Nat → Attempt) : Except Unit Nat × List Nat :=
  requestGo o 5 0 400

/-! Windowed fetcher. A network oracle maps each query to its outcome:
either a transport failure surviving all retries, or a response carrying a
status and the decode result of its JSON body (none models malformed JSON). -/

/-- Outcome of one search request after request_with_retries. -/
inductive Resp where
  | transport
  | resp (status : Nat) (body : Option (List RunRecord))
  deriving DecidableEq

/-- Errors a fetch operation can return. -/
inductive FetchErr where
  | transport
  | decode
  | windowFail (s e : Int)
  deriving DecidableEq

/-- The per-row dedup step of the window loops (src/ena.rs lines 226-232 and
269-275): a row with an accession already in the dedup set is dropped,
otherwise kept; rows without an accession are always kept. -/
def dedupStep (so : Finset String × List RunRecord) (rec : RunRecord) :
    Finset String × List RunRecord :=
  match rec.run_accession with
  | some acc => if acc ∈ so.1 then so else (insert acc so.1, so.2 ++ [rec])
  | none => (so.1, so.2 ++ [rec])

/-- Fold one window's rows through the dedup set. -/
def dedupRows (so : Finset String × List RunRecord) (rows : List RunRecord) :
    Finset String × List RunRecord :=
  rows.foldl dedupStep so

/-- The window loop shared by fetch_runs_since (fallback path) and
fetch_runs_between: for each window, a transport failure propagates, a
non-2xx status aborts identifying the window, a decode failure aborts, and
otherwise the rows are folded through the dedup set. -/
def fetchWindowsGo (win : Int × Int → Resp) :
    Finset String × List RunRecord → List (Int × Int) →
      Except FetchErr (List RunRecord)
  | so, [] => Except.ok so.2
  | so, (s, e) :: ws =>
    match win (s, e) with
    | .transport => Except.error .transport
    | .resp st body =>
      if isSuccess st then
        match body with
        | some rows => fetchWindowsGo win (dedupRows so rows) ws
        | none => Except.error .decode
      else Except.error (.windowFail s e)

/-- fetch_runs_between (src/ena.rs lines 241-281): always windowed, dedup
across windows, no single-shot attempt. The diagnostic handshake is ignored
per the spec (never affects the result). -/
def fetchRunsBetween (win : Int × Int → Resp) (s e : Int) :
    Except FetchErr (List RunRecord) :=
  fetchWindowsGo win (∅, []) (windows s e)

/-- fetch_runs_since (src/ena.rs lines 175-238): one single-shot full-range
request; a transport failure there propagates (the question mark operator on
request_with_retries), a 2xx response is decoded and returned, and any
non-2xx status falls back to the windowed loop over the range from since to
today. -/
def fetchRunsSince (full : Resp) (win : Int × Int → Resp) (since today : Int) :
    Except FetchErr (List RunRecord) :=
  match full with
  | .transport => Except.error .transport
  | .resp st body =>
    if isSuccess st then
      match body with
      | some rows => Except.ok rows
      | none => Except.error .decode
    else fetchWindowsGo win (∅, []) (windows since today)

/-! CLI window resolution (list_studies, src/main.rs lines 107-126): which
fetch is performed, or an argument error raised before any fetch. -/

/-- Argument errors raised by list_studies before fetching. -/
inductive CliErr where
  | toBeforeFrom
  | toWithoutFrom
  deriving DecidableEq

/-- A resolved fetch plan: either a fixed release window or a rolling
since-window. -/
inductive FetchPlan where
  | between (s e : Int)
  | since (s : Int)
  deriving DecidableEq

/-- The date logic of list_studies: with a from date, the end is the given
to date (rejected if before from) or from + weeks*7 - 1; without from, a to
date is rejected and the rolling window starts at today - weeks*7. -/
def resolvePlan (weeks : Int) (fromD toD : Option Int) (today : Int) :
    Except CliErr FetchPlan :=
  match fromD with
  | some start =>
    match toD with
    | some t => if t < start then Except.error .toBeforeFrom else Except.ok (.between start t)
    | none => Except.ok (.between start (start + 7 * weeks - 1))
  | none =>
    match toD with
    | some _ => Except.error .toWithoutFrom
    | none => Except.ok (.since (today - 7 * weeks))

/-- Errors of the whole listing workflow. -/
inductive ListErr where
  | cli (e : CliErr)
  | fetch (e : FetchErr)
  deriving DecidableEq

/-- The fetch stage of list_studies: resolve the plan, then run the
corresponding fetch against the network oracles. The oracles are consulted
only when a plan was resolved. -/
def listRuns (weeks : Int) (fromD toD : Option Int) (today : Int)
    (full : Resp) (win : Int × Int → Resp) : Except ListErr (List RunRecord) :=
  match resolvePlan weeks fromD toD today with
  | Except.error e => Except.error (.cli e)
  | Except.ok (.between s e) =>
    match fetchRunsBetween win s e with
    | Except.error e => Except.error (.fetch e)
    | Except.ok rows => Except.ok rows
  | Except.ok (.since s) =>
    match fetchRunsSince full win s today with
    | Except.error e => Except.error (.fetch e)
    | Except.ok rows => Except.ok rows

/-! Dedup correctness machinery. -/

/-- The dedup set after processing a row list. -/
def seenAfter (seen : Finset String) (rows : List RunRecord) : Finset String :=
  rows.foldl
    (fun s r =>
      match r.run_accession with
      | some a => insert a s
      | none => s)
    seen

/-- Recursive description of the rows kept by the dedup loop. -/
def dedupSpec (seen : Finset String) : List RunRecord → List RunRecord
  | [] => []
  | r :: rs =>
    match r.run_accession with
    | some a =>
      if a ∈ seen then dedupSpec seen rs else r :: dedupSpec (insert a seen) rs
    | none => r :: dedupSpec seen rs

theorem dedupRows_eq (rows : List RunRecord) (seen : Finset String)
    (out : List RunRecord) :
    dedupRows (seen, out) rows = (seenAfter seen rows, out ++ dedupSpec seen rows) := by
  induction rows generalizing seen out with
  | nil => simp [dedupRows, seenAfter, dedupSpec]
  | cons r rs ih =>
    simp only [dedupRows, List.foldl_cons, dedupSpec, seenAfter] at *
    cases hr : r.run_accession with
    | none =>
      have hstep : dedupStep (seen, out) r = (seen, out ++ [r]) := by
        simp [dedupStep, hr]
      rw [hstep, ih]
      simp [hr]
    | some a =>
      by_cases hm : a ∈ seen
      · have hstep : dedupStep (seen, out) r = (seen, out) := by
          simp [dedupStep, hr, hm]
        rw [hstep, ih]
        have hins : insert a seen = seen := Finset.insert_eq_self.mpr hm
        simp [hr, hm, hins]
      · have hstep : dedupStep (seen, out) r = (insert a seen, out ++ [r]) := by
          simp [dedupStep, hr, hm]
        rw [hstep, ih]
        simp [hr, hm]

theorem dedupSpec_filter_none (seen : Finset String) (rows : List RunRecord) :
    (dedupSpec seen rows).filter (fun r => decide (r.run_accession = none)) =
      rows.filter (fun r => decide (r.run_accession = none)) := by
  induction rows generalizing seen with
  | nil => rfl
  | cons r rs ih =>
    cases hr : r.run_accession with
    | none => simp [dedupSpec, hr, List.filter_cons, ih]
    | some a =>
      by_cases hm : a ∈ seen
      · simp [dedupSpec, hr, hm, List.filter_cons, ih]
      · simp [dedupSpec, hr, hm, List.filter_cons, ih]

theorem dedupSpec_filter_mem (seen : Finset String) (rows : List RunRecord)
    (a : String) (ha : a ∈ seen) :
    (dedupSpec seen rows).filter (fun r => decide (r.run_accession = some a)) = [] := by
  induction rows generalizing seen with
  | nil => rfl
  | cons r rs ih =>
    cases hr : r.run_accession with
    | none => simp [dedupSpec, hr, List.filter_cons, ih seen ha]
    | some b =>
      by_cases hm : b ∈ seen
      · simp [dedupSpec, hr, hm, ih seen ha]
      · have hba : b ≠ a := fun h => hm (h ▸ ha)
        have : a ∈ insert b seen := Finset.mem_insert_of_mem ha
        simp [dedupSpec, hr, hm, List.filter_cons, hba, ih (insert b seen) this]

theorem dedupSpec_filter_some (seen : Finset String) (rows : List RunRecord)
    (a : String) (ha : a ∉ seen) :
    (dedupSpec seen rows).filter (fun r => decide (r.run_accession = some a)) =
      (rows.filter (fun r => decide (r.run_accession = some a))).take 1 := by
  induction rows generalizing seen with
  | nil => rfl
  | cons r rs ih =>
    cases hr : r.run_accession with
    | none => simp [dedupSpec, hr, List.filter_cons, ih seen ha]
    | some b =>
      by_cases hm : b ∈ seen
      · have hba : b ≠ a := fun h => ha (h ▸ hm)
        simp [dedupSpec, hr, hm, List.filter_cons, hba, ih seen ha]
      · by_cases hab : b = a
        · subst hab
          have hmem : b ∈ insert b seen := Finset.mem_insert_self b seen
          have hnil := dedupSpec_filter_mem (insert b seen) rs b hmem
          rw [List.filter_eq_nil_iff] at hnil
          simp [dedupSpec, hr, hm, List.filter_cons]
          intro x hx
          simpa using hnil x hx
        · have : a ∉ insert b seen := by
            rw [Finset.mem_insert]
            push_neg
            exact ⟨fun h => hab h.symm, ha⟩
          simp [dedupSpec, hr, hm, List.filter_cons, hab, ih (insert b seen) this]

theorem fetchWindowsGo_ok (win : Int × Int → Resp) (ws : List (Int × Int))
    (rowsOf : Int × Int → List RunRecord)
    (h : ∀ w ∈ ws, win w = Resp.resp 200 (some (rowsOf w)))
    (so : Finset String × List RunRecord) :
    fetchWindowsGo win so ws = Except.ok (dedupRows so ((ws.map rowsOf).flatten)).2 := by
  induction ws generalizing so with
  | nil => simp [fetchWindowsGo, dedupRows]
  | cons w ws ih =>
    obtain ⟨s, e⟩ := w
    have hw := h (s, e) (List.mem_cons_self _ _)
    simp only [fetchWindowsGo, hw]
    rw [if_pos (by decide : isSuccess 200 = true)]
    rw [ih (fun w hmem => h w (List.mem_cons_of_mem _ hmem))]
    simp [dedupRows, List.foldl_append]

/-! Spec-side comparison definitions, for the refinement claims about species
order and release dates. -/

/-- Distinct elements of a list in first-encountered order (aux, carrying
the names already seen). -/
def firstDistinctAux (seen : List String) : List String → List String
  | [] => []
  | x :: xs =>
    if x ∈ seen then firstDistinctAux seen xs
    else x :: firstDistinctAux (x :: seen) xs

/-- Distinct elements of a list in first-encountered order. -/
def firstDistinct (l : List String) : List String := firstDistinctAux [] l

/-- The non-empty species names of a study's rows, in stream order, with
duplicates retained. -/
def encounteredSpecies (rows : List RunRecord) (k : String) : List String :=
  ((rowsOfStudy rows k).filterMap (fun r => r.scientific_name)).filter
    (fun s => decide (s ≠ ""))

/-- Modelled from the spec: the first 5 distinct non-empty species names in
the order they were first encountered in the row stream (the reading of the
species cap asserted by the claim). -/
def specFirstFiveEncountered (rows : List RunRecord) (k : String) : List String :=
  (firstDistinct (encounteredSpecies rows k)).take 5

/-- The non-empty first_public dates of a study's rows, in stream order. -/
def nonEmptyFirstPublicDates (rows : List RunRecord) (k : String) : List String :=
  ((rowsOfStudy rows k).filterMap (fun r => r.first_public)).filter
    (fun d => decide (d ≠ ""))

/-! Commutation of the aggregation fold, for the order-independence claim. -/

theorem satAdd_comm2 (b u v : Nat) : satAdd (satAdd b u) v = satAdd (satAdd b v) u := by
  unfold satAdd
  omega

theorem relStep_comm (rel f1 f2 : String) (h1 : f1 ≠ "") (h2 : f2 ≠ "") :
    relStep (relStep rel f1) f2 = relStep (relStep rel f2) f1 := by
  by_cases hrel : rel = ""
  · have e1 : relStep rel f1 = f1 := by simp [relStep, hrel]
    have e2 : relStep rel f2 = f2 := by simp [relStep, hrel]
    rw [e1, e2, relStep_eq_min f1 f2 h1, relStep_eq_min f2 f1 h2, min_comm]
  · have hm1 : min rel f1 ≠ "" := by
      rcases min_choice rel f1 with h | h <;> rw [h] <;> assumption
    have hm2 : min rel f2 ≠ "" := by
      rcases min_choice rel f2 with h | h <;> rw [h] <;> assumption
    rw [relStep_eq_min rel f1 hrel, relStep_eq_min rel f2 hrel,
      relStep_eq_min _ f2 hm1, relStep_eq_min _ f1 hm2, min_right_comm]

theorem titleStep_comm (tit t1 t2 : String) (hc : t1 ≠ "" → t2 ≠ "" → t1 = t2) :
    titleStep (titleStep tit t1) t2 = titleStep (titleStep tit t2) t1 := by
  by_cases h1 : t1 = ""
  · subst h1
    have e1 : ∀ u, titleStep u "" = u := by intro u; simp [titleStep]
    rw [e1, e1]
  · by_cases h2 : t2 = ""
    · subst h2
      have e2 : ∀ u, titleStep u "" = u := by intro u; simp [titleStep]
      rw [e2, e2]
    · have heq : t1 = t2 := hc h1 h2
      subst heq
      rfl

theorem updateAgg_comm (a : Agg) (x y : RunRecord)
    (hti : ∀ t1 t2, x.study_title = some t1 → y.study_title = some t2 →
      t1 ≠ "" → t2 ≠ "" → t1 = t2)
    (hfx : x.first_public ≠ some "") (hfy : y.first_public ≠ some "") :
    updateAgg (updateAgg a x) y = updateAgg (updateAgg a y) x := by
  simp only [updateAgg, Agg.mk.injEq]
  refine ⟨Finset.Insert.comm _ _ _, ?_, ?_, ?_, ?_, ?_, ?_⟩
  · cases x.library_strategy <;> cases y.library_strategy <;>
      simp [Finset.Insert.comm]
  · cases hx : x.scientific_name with
    | none => cases hy : y.scientific_name <;> simp
    | some sx =>
      cases hy : y.scientific_name with
      | none => simp
      | some sy =>
        by_cases ex : sx = "" <;> by_cases ey : sy = "" <;>
          simp [ex, ey, Finset.Insert.comm]
  · cases hx : x.sample_accession with
    | none => cases hy : y.sample_accession <;> simp
    | some sx =>
      cases hy : y.sample_accession with
      | none => simp
      | some sy =>
        by_cases ex : sx = "" <;> by_cases ey : sy = "" <;>
          simp [ex, ey, Finset.Insert.comm]
  · cases hx : x.base_count with
    | none => cases y.base_count <;> simp
    | some bx =>
      cases hy : y.base_count with
      | none => simp
      | some by' =>
        rcases h1 : parseU64 bx with _ | u <;> rcases h2 : parseU64 by' with _ | v <;>
          simp [h1, h2, satAdd_comm2]
  · cases hx : x.study_title with
    | none => cases y.study_title <;> simp [titleStep]
    | some tx =>
      cases hy : y.study_title with
      | none => simp
      | some ty =>
        have := titleStep_comm a.title tx ty (fun e1 e2 => hti tx ty hx hy e1 e2)
        simpa [titleStep] using this
  · cases hx : x.first_public with
    | none => cases y.first_public <;> simp [relStep]
    | some fx =>
      cases hy : y.first_public with
      | none => simp
      | some fy =>
        have hfx' : fx ≠ "" := fun h => hfx (by rw [hx, h])
        have hfy' : fy ≠ "" := fun h => hfy (by rw [hy, h])
        have := relStep_comm a.release fx fy hfx' hfy'
        simpa [relStep] using this

theorem studyStep_comm (m : String → Option Agg) (x y : RunRecord)
    (hti : ∀ t1 t2, x.study_title = some t1 → y.study_title = some t2 →
      x.study_accession = y.study_accession → t1 ≠ "" → t2 ≠ "" → t1 = t2)
    (hfx : x.first_public ≠ some "") (hfy : y.first_public ≠ some "") :
    studyStep (studyStep m x) y = studyStep (studyStep m y) x := by
  funext k
  simp only [studyStep]
  by_cases hkx : k = x.study_accession <;> by_cases hky : k = y.study_accession
  · have hxy : x.study_accession = y.study_accession := by rw [← hkx, hky]
    simp only [if_pos hkx, if_pos hky]
    congr 1
    exact updateAgg_comm _ x y (fun t1 t2 a b c d => hti t1 t2 a b hxy c d) hfx hfy
  · have hxy : ¬ x.study_accession = y.study_accession := by rw [← hkx]; exact hky
    simp [hkx, hky, hxy]
  · have hyx : ¬ y.study_accession = x.study_accession := by rw [← hky]; exact hkx
    simp [hkx, hky, hyx]
  · simp [hkx, hky]

theorem requestGo_congr (o o' : Nat → Attempt) (fuel attempt delay : Nat)
    (h : ∀ i, attempt ≤ i → i < attempt + fuel → o i = o' i) :
    requestGo o fuel attempt delay = requestGo o' fuel attempt delay := by
  induction fuel generalizing attempt delay with
  | zero => rfl
  | succ fuel' ih =>
    have h0 : o attempt = o' attempt := h attempt le_rfl (by omega)
    have hrec : ∀ d, requestGo o fuel' (attempt + 1) d = requestGo o' fuel' (attempt + 1) d :=
      fun d => ih (attempt + 1) d (fun i h1 h2 => h i (by omega) (by omega))
    simp only [requestGo, h0]
    cases o' attempt with
    | fail =>
      by_cases h4 : attempt = 4 <;> simp [h4, hrec]
    | ok st ra =>
      by_cases hs : isSuccess st
      · simp [hs]
      · by_cases hr : isRetryable st
        · by_cases h4 : attempt = 4
          · simp [hs, hr, h4]
          · cases ra <;> simp [hs, hr, h4, hrec]
        · simp [hs, hr]

/-- C1: the retrying transport makes at most 5 attempts; a 2xx response on
any attempt is returned immediately as success; a response with status
429, 500, 502, 503 or 504 sleeps (the parsed Retry-After header in seconds
when present, else the exponential delay 400ms doubling each retry) and
retries, except on the 5th attempt where the response is returned as-is;
any other non-2xx status is returned immediately with zero sleeps. A 503 on
attempts 1 to 4 followed by a 200 on attempt 5 yields success with exactly
the 4 sleeps 400, 800, 1600, 3200 ms; a 503 on all 5 attempts returns the
503 response with those same 4 sleeps and no error. -/
theorem retry_policy_c1 :
    (∀ (o : Nat → Attempt) (st : Nat) (ra : Option Nat), o 0 = .ok st ra →
      isSuccess st = true → requestWithRetries o = (Except.ok st, [])) ∧
    (∀ (o : Nat → Attempt) (st : Nat) (ra : Option Nat), o 0 = .ok st ra →
      isSuccess st = false → isRetryable st = false →
      requestWithRetries o = (Except.ok st, [])) ∧
    (∀ (o : Nat → Attempt), (∀ i, i < 4 → o i = .ok 503 none) →
      ∀ ra, o 4 = .ok 200 ra →
      requestWithRetries o = (Except.ok 200, [400, 800, 1600, 3200])) ∧
    (∀ (o : Nat → Attempt), (∀ i, i ≤ 4 → o i = .ok 503 none) →
      requestWithRetries o = (Except.ok 503, [400, 800, 1600, 3200])) ∧
    (∀ (o o' : Nat → Attempt), (∀ i, i ≤ 4 → o i = o' i) →
      requestWithRetries o = requestWithRetries o') ∧
    (∀ (o : Nat → Attempt) (st secs : Nat), o 0 = .ok st (some secs) →
      isSuccess st = false → isRetryable st = true →
      (requestWithRetries o).2.head? = some (secs * 1000)) := by
  refine ⟨?_, ?_, ?_, ?_, ?_, ?_⟩
  · intro o st ra h0 hs
    simp [requestWithRetries, requestGo, h0, hs]
  · intro o st ra h0 hs hr
    simp [requestWithRetries, requestGo, h0, hs, hr]
  · intro o h ra h4
    have h0 := h 0 (by omega)
    have h1 := h 1 (by omega)
    have h2 := h 2 (by omega)
    have h3 := h 3 (by omega)
    simp [requestWithRetries, requestGo, h0, h1, h2, h3, h4, isSuccess, isRetryable]
  · intro o h
    have h0 := h 0 (by omega)
    have h1 := h 1 (by omega)
    have h2 := h 2 (by omega)
    have h3 := h 3 (by omega)
    have h4 := h 4 (by omega)
    simp [requestWithRetries, requestGo, h0, h1, h2, h3, h4, isSuccess, isRetryable]
  · intro o o' h
    exact requestGo_congr o o' 5 0 400 (fun i h1 h2 => h i (by omega))
  · intro o st secs h0 hs hr
    simp [requestWithRetries, requestGo, h0, hs, hr]

/-- Witness for C1: a 503 on attempts 1-4 with a 200 on attempt 5 succeeds
after exactly the four exponential sleeps, and a 404 on the first attempt is
returned at once with no sleeps. -/
theorem retry_policy_c1_witness :
    requestWithRetries (fun i => if i < 4 then .ok 503 none else .ok 200 none) =
        (Except.ok 200, [400, 800, 1600, 3200]) ∧
      requestWithRetries (fun _ => .ok 404 none) = (Except.ok 404, []) := by
  constructor
  · exact retry_policy_c1.2.2.1 _ (fun i hi => by simp [hi]) none (by simp)
  · exact retry_policy_c1.2.1 _ 404 none rfl (by decide) (by decide)

theorem windows_last (s e : Int) (h : s ≤ e) :
    ((windows s e).getLast?).map Prod.snd = some e := by
  induction s, e using windows.induct with
  | case1 s e h2 ih =>
    rw [windows_cons s e h2]
    by_cases h3 : min (s + 13) e + 1 ≤ e
    · rw [windows_cons _ _ h3, List.getLast?_cons_cons, ← windows_cons _ _ h3]
      exact ih h3
    · rw [windows_nil _ _ h3]
      have : min (s + 13) e = e := by omega
      simp [this]
  | case2 s e h2 => exact absurd h h2

theorem windows_chain (s e : Int) :
    List.Chain' (fun w w' : Int × Int => w'.1 = w.2 + 1) (windows s e) := by
  induction s, e using windows.induct with
  | case1 s e h2 ih =>
    rw [windows_cons s e h2]
    rw [List.chain'_cons']
    refine ⟨?_, ih⟩
    intro b hb
    by_cases h3 : min (s + 13) e + 1 ≤ e
    · rw [windows_cons _ _ h3] at hb
      simp only [List.head?_cons, Option.mem_def, Option.some.injEq] at hb
      rw [← hb]
    · rw [windows_nil _ _ h3] at hb
      simp at hb
  | case2 s e h2 => rw [windows_nil s e h2]; exact List.chain'_nil

theorem windows_mem (s e : Int) :
    ∀ w ∈ windows s e, w.2 = min (w.1 + 13) e ∧ w.1 ≤ w.2 := by
  induction s, e using windows.induct with
  | case1 s e h2 ih =>
    rw [windows_cons s e h2]
    intro w hw
    rcases List.mem_cons.mp hw with h | h
    · subst h
      constructor
      · rfl
      · simp only
        omega
    · exact ih w h
  | case2 s e h2 =>
    rw [windows_nil s e h2]
    intro w hw
    cases hw

/-- C7: the 14-day sub-windowing of a date range: a range of exactly 14 days
produces the single window from start to start+13; a range of 15 days
produces exactly two windows; the first window starts at the range start,
each successive window starts the day after the previous window ends, every
window ends at min(start+13, range end), and the last window is clipped to
the range end. -/
theorem windowing_c7 :
    (∀ s : Int, windows s (s + 13) = [(s, s + 13)]) ∧
    (∀ s : Int, windows s (s + 14) = [(s, s + 13), (s + 14, s + 14)]) ∧
    (∀ s e : Int, s ≤ e → (windows s e).head? = some (s, min (s + 13) e)) ∧
    (∀ s e : Int, s ≤ e → ((windows s e).getLast?).map Prod.snd = some e) ∧
    (∀ s e : Int, List.Chain' (fun w w' : Int × Int => w'.1 = w.2 + 1) (windows s e)) ∧
    (∀ s e : Int, ∀ w ∈ windows s e, w.2 = min (w.1 + 13) e ∧ w.1 ≤ w.2) := by
  refine ⟨?_, ?_, ?_, windows_last, windows_chain, windows_mem⟩
  · intro s
    rw [windows_cons s (s + 13) (by omega)]
    have hmin : min (s + 13) (s + 13) = s + 13 := min_self _
    rw [hmin, windows_nil _ _ (by omega)]
  · intro s
    rw [windows_cons s (s + 14) (by omega)]
    have hmin : min (s + 13) (s + 14) = s + 13 := by omega
    rw [hmin, windows_cons _ _ (by omega : s + 13 + 1 ≤ s + 14)]
    have hmin2 : min (s + 13 + 1 + 13) (s + 14) = s + 14 := by omega
    rw [hmin2, windows_nil _ _ (by omega)]
    norm_num
    omega
  · intro s e h
    rw [windows_cons s e h]
    rfl

/-- Witness for C7: concrete 14- and 15-day ranges starting at day 0, and the
window list of the 20-day range from 0 to 19. -/
theorem windowing_c7_witness :
    windows 0 13 = [(0, 13)] ∧ windows 0 14 = [(0, 13), (14, 14)] ∧
      (windows 0 19).head? = some (0, min 13 19) ∧
      ((windows 0 19).getLast?).map Prod.snd = some 19 := by
  refine ⟨?_, ?_, ?_, ?_⟩
  · have := windowing_c7.1 0
    norm_num at this
    exact this
  · have := windowing_c7.2.1 0
    norm_num at this
    exact this
  · have := windowing_c7.2.2.1 0 19 (by omega)
    norm_num at this ⊢
    exact this
  · exact windowing_c7.2.2.2.1 0 19 (by omega)

/-- C4: an explicit end date earlier than the start date is rejected by the
argument check of list_studies before any fetch is attempted: the result is
the argument error, whatever the network oracles would answer. -/
theorem between_guard_c4 (weeks start t today : Int) (full : Resp)
    (win : Int × Int → Resp) (h : t < start) :
    listRuns weeks (some start) (some t) today full win =
      Except.error (.cli .toBeforeFrom) := by
  simp [listRuns, resolvePlan, if_pos h]

/-- Witness for C4: a concrete end date before the start date is rejected. -/
theorem between_guard_c4_witness :
    (3 : Int) < 5 ∧
      listRuns 8 (some 5) (some 3) 100 .transport (fun _ => .transport) =
        Except.error (.cli .toBeforeFrom) :=
  ⟨by decide, between_guard_c4 8 5 3 100 .transport (fun _ => .transport) (by decide)⟩

theorem map_nil_flatten (ws : List (Int × Int)) :
    ((ws.map (fun _ => ([] : List RunRecord))).flatten) = [] := by
  induction ws with
  | nil => rfl
  | cons w ws ih => simp [ih]

/-- C5 counterexample: a transport-level failure of the single-shot
full-range request propagates as an error from fetch_runs_since (the
question mark operator on request_with_retries), even though the windowed
fallback over the same range would have succeeded; so not every failure of
the single-shot request triggers the fallback. -/
theorem since_fallback_c5_counterexample :
    fetchRunsSince .transport (fun _ => .resp 200 (some [])) 0 30 =
        Except.error .transport ∧
      fetchWindowsGo (fun _ => .resp 200 (some [])) (∅, []) (windows 0 30) =
        Except.ok [] := by
  constructor
  · rfl
  · rw [fetchWindowsGo_ok _ _ (fun _ => []) (fun w _ => rfl) (∅, [])]
    rw [map_nil_flatten]
    rfl

/-- C5 (amended): every failure of the single-shot full-range request that
is a non-2xx response (rather than a transport-level error) is recoverable:
fetch_runs_since then runs the 14-day windowed fallback over the range from
since to today instead of propagating an error; transport-level failures of
the single-shot request propagate. -/
theorem since_fallback_c5 (st : Nat) (body : Option (List RunRecord))
    (win : Int × Int → Resp) (since today : Int) (h : isSuccess st = false) :
    fetchRunsSince (.resp st body) win since today =
      fetchWindowsGo win (∅, []) (windows since today) := by
  simp [fetchRunsSince, h]

/-- Witness for C5: a 503 on the single-shot request falls back to the
windowed loop. -/
theorem since_fallback_c5_witness :
    isSuccess 503 = false ∧
      fetchRunsSince (.resp 503 none) (fun _ => .resp 200 (some [])) 0 30 =
        fetchWindowsGo (fun _ => .resp 200 (some [])) (∅, []) (windows 0 30) :=
  ⟨by decide, since_fallback_c5 503 none _ 0 30 (by decide)⟩

/-- C6: within one windowed fetch in which every window succeeds, a run
accession returned by any window (possibly by several overlapping windows)
appears on exactly one row of the result, namely the first row carrying it
in window order, and rows lacking a run accession are never deduplicated:
they are all passed through. -/
theorem dedup_c6 (win : Int × Int → Resp) (ws : List (Int × Int))
    (rowsOf : Int × Int → List RunRecord)
    (hw : ∀ w ∈ ws, win w = Resp.resp 200 (some (rowsOf w)))
    (out : List RunRecord)
    (hout : fetchWindowsGo win (∅, []) ws = Except.ok out) :
    (∀ a : String, (∃ r ∈ (ws.map rowsOf).flatten, r.run_accession = some a) →
      (out.filter (fun r => decide (r.run_accession = some a))).length = 1) ∧
    (∀ a : String,
      out.filter (fun r => decide (r.run_accession = some a)) =
        (((ws.map rowsOf).flatten).filter
          (fun r => decide (r.run_accession = some a))).take 1) ∧
    (out.filter (fun r => decide (r.run_accession = none)) =
      ((ws.map rowsOf).flatten).filter (fun r => decide (r.run_accession = none))) := by
  have h1 := fetchWindowsGo_ok win ws rowsOf hw (∅, [])
  rw [hout] at h1
  have hout2 : out = dedupSpec ∅ ((ws.map rowsOf).flatten) := by
    have h2 := dedupRows_eq ((ws.map rowsOf).flatten) ∅ []
    injection h1 with h1'
    rw [h1', h2]
    simp
  have hsome : ∀ a : String,
      out.filter (fun r => decide (r.run_accession = some a)) =
        (((ws.map rowsOf).flatten).filter
          (fun r => decide (r.run_accession = some a))).take 1 := by
    intro a
    rw [hout2]
    exact dedupSpec_filter_some ∅ _ a (Finset.not_mem_empty a)
  refine ⟨?_, hsome, ?_⟩
  · intro a ⟨r, hr, hacc⟩
    rw [hsome a]
    have hmem : r ∈ ((ws.map rowsOf).flatten).filter
        (fun r => decide (r.run_accession = some a)) :=
      List.mem_filter.mpr ⟨hr, by simp [hacc]⟩
    cases hf : ((ws.map rowsOf).flatten).filter
        (fun r => decide (r.run_accession = some a)) with
    | nil => rw [hf] at hmem; cases hmem
    | cons x t => simp [hf]
  · rw [hout2]
    exact dedupSpec_filter_none ∅ _

/-- A run row carrying accession SRR000001, used in the dedup witness. -/
def c6row : RunRecord :=
  ⟨some "SRR000001", "PRJ1", none, none, none, none, none, none, none⟩

/-- Witness for C6: two overlapping windows each return the same
SRR000001 row; the fetch result contains that accession exactly once. -/
theorem dedup_c6_witness :
    ([c6row].filter (fun r => decide (r.run_accession = some "SRR000001"))).length = 1 := by
  have h := dedup_c6 (fun _ => .resp 200 (some [c6row])) [(0, 13), (7, 20)]
    (fun _ => [c6row]) (fun w _ => rfl) [c6row] rfl
  exact h.1 "SRR000001" ⟨c6row, by decide, by decide⟩

theorem foldStudies_some_eq (rows : List RunRecord) (k : String) (a : Agg)
    (ha : foldStudies rows k = some a) :
    a = (rowsOfStudy rows k).foldl updateAgg defaultAgg := by
  cases hc : rowsOfStudy rows k with
  | nil =>
    rw [foldStudies_eq, hc] at ha
    cases ha
  | cons r l =>
    have h2 := foldStudies_eq_some rows k r l hc
    rw [h2] at ha
    injection ha with h3
    rw [← h3, List.foldl_cons]

/-- C3 (amended): the aggregation fold is order-independent provided the
rows of each study agree on their non-empty titles (at most one distinct
non-empty study_title per study) and no row carries a present-but-empty
first_public: under those conditions any permutation of the row stream
yields the same aggregate mapping. Without them the fold is order-dependent:
the first-non-empty-title rule and the empty-string release reset are not
commutative. -/
theorem reduce_perm_c3 (rows rows' : List RunRecord) (hp : rows.Perm rows')
    (hti : ∀ x ∈ rows, ∀ y ∈ rows, x.study_accession = y.study_accession →
      ∀ t1 t2, x.study_title = some t1 → y.study_title = some t2 →
        t1 ≠ "" → t2 ≠ "" → t1 = t2)
    (hfp : ∀ r ∈ rows, r.first_public ≠ some "") :
    ∀ k, foldStudies rows k = foldStudies rows' k := by
  intro k
  unfold foldStudies
  have hcomm : ∀ x ∈ rows, ∀ y ∈ rows, ∀ (z : String → Option Agg),
      studyStep (studyStep z x) y = studyStep (studyStep z y) x := by
    intro x hx y hy z
    exact studyStep_comm z x y
      (fun t1 t2 h1 h2 hxy e1 e2 => hti x hx y hy hxy t1 t2 h1 h2 e1 e2)
      (hfp x hx) (hfp y hy)
  rw [hp.foldl_eq' hcomm (fun _ => none)]

/-- Row of study PRJ1 with title A and no other fields. -/
def c3row1 : RunRecord := ⟨none, "PRJ1", none, none, none, none, none, none, some "A"⟩

/-- Row of study PRJ1 with title B and no other fields. -/
def c3row2 : RunRecord := ⟨none, "PRJ1", none, none, none, none, none, none, some "B"⟩

/-- Counterexample to C3 as stated: swapping two rows of the same study that
carry different non-empty titles changes the aggregated title, so the fold
is not commutative over arbitrary row sets. -/
theorem reduce_perm_c3_counterexample :
    [c3row1, c3row2].Perm [c3row2, c3row1] ∧
      foldStudies [c3row1, c3row2] "PRJ1" ≠ foldStudies [c3row2, c3row1] "PRJ1" := by
  constructor
  · exact List.Perm.swap c3row2 c3row1 []
  · intro h
    have h1 : (foldStudies [c3row1, c3row2] "PRJ1").map Agg.title = some "A" := by rfl
    have h2 : (foldStudies [c3row2, c3row1] "PRJ1").map Agg.title = some "B" := by rfl
    rw [h] at h1
    rw [h1] at h2
    injection h2 with h3
    exact absurd h3 (by decide)

/-- Row of study PRJ1 with title T and release date 2024-01-05. -/
def c3wrow1 : RunRecord :=
  ⟨none, "PRJ1", none, none, none, none, none, some "2024-01-05", some "T"⟩

/-- Row of study PRJ1 with title T and release date 2024-01-02. -/
def c3wrow2 : RunRecord :=
  ⟨none, "PRJ1", none, none, none, none, none, some "2024-01-02", some "T"⟩

/-- Witness for C3 (amended): two rows of one study with an agreed title and
non-empty dates aggregate identically in either order. -/
theorem reduce_perm_c3_witness :
    foldStudies [c3wrow1, c3wrow2] "PRJ1" = foldStudies [c3wrow2, c3wrow1] "PRJ1" :=
  reduce_perm_c3 [c3wrow1, c3wrow2] [c3wrow2, c3wrow1]
    (List.Perm.swap c3wrow2 c3wrow1 [])
    (by
      intro x hx y hy hxy t1 t2 h1 h2 e1 e2
      have htx : x = c3wrow1 ∨ x = c3wrow2 := by simpa using hx
      have hty : y = c3wrow1 ∨ y = c3wrow2 := by simpa using hy
      rcases htx with h | h <;> rcases hty with h' | h' <;> subst h <;> subst h' <;>
        simp_all [c3wrow1, c3wrow2])
    (by decide) "PRJ1"

/-- Row of study PRJ1 first published 2024-01-05. -/
def c8row1 : RunRecord :=
  ⟨none, "PRJ1", none, none, none, none, none, some "2024-01-05", none⟩

/-- Row of study PRJ1 with a present-but-empty first_public field. -/
def c8row2 : RunRecord :=
  ⟨none, "PRJ1", none, none, none, none, none, some "", none⟩

/-- Counterexample to C8 as stated: a row whose first_public is present but
empty resets the study's release to the empty string, so the finalized
release date is not the minimum of the non-empty dates (here 2024-01-05). -/
theorem release_c8_counterexample :
    nonEmptyFirstPublicDates [c8row1, c8row2] "PRJ1" = ["2024-01-05"] ∧
      (foldStudies [c8row1, c8row2] "PRJ1").map Agg.release = some "" := by
  constructor
  · rfl
  · rw [foldStudies_eq_some [c8row1, c8row2] "PRJ1" c8row1 [c8row2] rfl]
    have h2 : (updateAgg (updateAgg defaultAgg c8row1) c8row2).release = "" := by
      simp [updateAgg, c8row1, c8row2, defaultAgg]
      decide
    simp [h2]

/-- C8 (amended): provided no row carries a present-but-empty first_public
(absent is fine), a study's aggregated release date is the lexicographic
minimum of the non-empty first_public dates among that study's rows, and
stays empty when no date is present. -/
theorem release_c8 (rows : List RunRecord) (k : String)
    (hfp : ∀ r ∈ rows, r.first_public ≠ some "") (a : Agg)
    (ha : foldStudies rows k = some a) :
    (nonEmptyFirstPublicDates rows k = [] → a.release = "") ∧
    (nonEmptyFirstPublicDates rows k ≠ [] →
      a.release ∈ nonEmptyFirstPublicDates rows k ∧
        ∀ d ∈ nonEmptyFirstPublicDates rows k, a.release ≤ d) := by
  have hall : ∀ d ∈ (rowsOfStudy rows k).filterMap (fun r => r.first_public), d ≠ "" := by
    intro d hd
    obtain ⟨r, hr, hsome⟩ := List.mem_filterMap.mp hd
    have hrr : r ∈ rows := List.mem_of_mem_filter hr
    intro hde
    exact hfp r hrr (by rw [hsome, hde])
  have hdates : nonEmptyFirstPublicDates rows k =
      (rowsOfStudy rows k).filterMap (fun r => r.first_public) := by
    unfold nonEmptyFirstPublicDates
    apply List.filter_eq_self.mpr
    intro d hd
    simpa using hall d hd
  have hrel : a.release =
      ((rowsOfStudy rows k).filterMap (fun r => r.first_public)).foldl relStep "" := by
    rw [foldStudies_some_eq rows k a ha, fold_release]
    rfl
  constructor
  · intro hnil
    rw [hdates] at hnil
    rw [hrel, hnil]
    rfl
  · intro hne
    rw [hdates] at hne ⊢
    rw [hrel]
    exact release_min _ hne hall

/-- Row of study PRJ1 first published 2024-01-20. -/
def c8wrow : RunRecord :=
  ⟨none, "PRJ1", none, none, none, none, none, some "2024-01-20", none⟩

/-- Witness for C8 (amended): with dates 2024-01-05 and 2024-01-20 the
aggregated release is one of the dates and is at most 2024-01-20 (it is
their minimum, 2024-01-05). -/
theorem release_c8_witness :
    ([c8wrow].foldl updateAgg (updateAgg defaultAgg c8row1)).release ∈
        nonEmptyFirstPublicDates [c8row1, c8wrow] "PRJ1" ∧
      ([c8wrow].foldl updateAgg (updateAgg defaultAgg c8row1)).release ≤ "2024-01-20" := by
  have h := (release_c8 [c8row1, c8wrow] "PRJ1" (by decide)
    ([c8wrow].foldl updateAgg (updateAgg defaultAgg c8row1))
    (foldStudies_eq_some [c8row1, c8wrow] "PRJ1" c8row1 [c8wrow] rfl)).2 (by decide)
  exact ⟨h.1, h.2 "2024-01-20" (by decide)⟩

theorem finset_sort_eq (s : Finset String) (L : List String)
    (hval : s.val = (L : Multiset String)) (hL : List.Sorted (· ≤ ·) L) :
    s.sort (· ≤ ·) = L := by
  have h1 : s.toList.Perm L := by
    rw [← Multiset.coe_eq_coe, Finset.coe_toList, hval]
  have h2 : (s.sort (· ≤ ·)).Perm L := (Finset.sort_perm_toList _ s).trans h1
  exact List.eq_of_perm_of_sorted h2 (Finset.sort_sorted _ s) hL

theorem agg_species_char (rows : List RunRecord) (k : String) (a : Agg)
    (ha : foldStudies rows k = some a) (x : String) :
    x ∈ a.species ↔ x ≠ "" ∧ ∃ r ∈ rowsOfStudy rows k, r.scientific_name = some x := by
  rw [foldStudies_some_eq rows k a ha, fold_species_mem]
  have : x ∈ defaultAgg.species ↔ False := by simp [defaultAgg]
  rw [this, false_or]

/-- C2 (amended): when a study's rows contain more than 5 distinct non-empty
species names, the finalized aggregate retains exactly 5 names, namely the 5
lexicographically smallest distinct names in strictly ascending order (the
first 5 of the sorted species set, comma-joined into the finalized display
field), not the first 5 in encounter order: every retained name is a species
of the study and is strictly smaller than every dropped one, and the species
set is exactly the set of distinct non-empty names of the study's rows. -/
theorem species_cap_c2 (rows : List RunRecord) (k : String) (a : Agg)
    (ha : foldStudies rows k = some a) (hcard : 5 < a.species.card) :
    (speciesRetained a).length = 5 ∧
    List.Sorted (· < ·) (speciesRetained a) ∧
    speciesRetained a = (a.species.sort (· ≤ ·)).take 5 ∧
    (finalizeAgg k a).species = joinComma (speciesRetained a) ∧
    (∀ x ∈ speciesRetained a, x ∈ a.species) ∧
    (∀ x ∈ speciesRetained a, ∀ y ∈ a.species, y ∉ speciesRetained a → x < y) ∧
    (∀ x, x ∈ a.species ↔
      x ≠ "" ∧ ∃ r ∈ rowsOfStudy rows k, r.scientific_name = some x) := by
  have hlen : 5 < (a.species.sort (· ≤ ·)).length := by
    rw [Finset.length_sort]
    exact hcard
  have hsr : speciesRetained a = (a.species.sort (· ≤ ·)).take 5 := by
    unfold speciesRetained
    rw [if_pos hlen]
  have hmem : ∀ x ∈ speciesRetained a, x ∈ a.species := by
    intro x hx
    rw [hsr] at hx
    exact (Finset.mem_sort _).mp (List.take_subset 5 _ hx)
  refine ⟨?_, ?_, hsr, rfl, hmem, ?_, agg_species_char rows k a ha⟩
  · rw [hsr, List.length_take]
    omega
  · rw [hsr]
    exact List.Pairwise.sublist (List.take_sublist 5 _) (Finset.sort_sorted_lt a.species)
  · intro x hx y hy hyn
    have hsorted : List.Sorted (· < ·) (a.species.sort (· ≤ ·)) :=
      Finset.sort_sorted_lt a.species
    have hsplit : a.species.sort (· ≤ ·) =
        (a.species.sort (· ≤ ·)).take 5 ++ (a.species.sort (· ≤ ·)).drop 5 :=
      (List.take_append_drop 5 _).symm
    have hpair : List.Pairwise (· < ·)
        ((a.species.sort (· ≤ ·)).take 5 ++ (a.species.sort (· ≤ ·)).drop 5) := by
      rw [← hsplit]
      exact hsorted
    have hcross := (List.pairwise_append.mp hpair).2.2
    have hy2 : y ∈ (a.species.sort (· ≤ ·)).take 5 ++ (a.species.sort (· ≤ ·)).drop 5 := by
      rw [← hsplit]
      exact (Finset.mem_sort _).mpr hy
    rcases List.mem_append.mp hy2 with h | h
    · exact absurd (hsr ▸ h) hyn
    · exact hcross x (hsr ▸ hx) y h

/-- Row of study PRJ1 carrying only the given species name. -/
def c2row (sp : String) : RunRecord :=
  ⟨none, "PRJ1", none, none, none, none, some sp, none, none⟩

/-- Eight rows of one study whose distinct species names arrive in
descending lexicographic order. -/
def c2rows : List RunRecord :=
  [c2row "w8", c2row "w7", c2row "w6", c2row "w5", c2row "w4", c2row "w3",
   c2row "w2", c2row "w1"]

/-- The aggregate of the eight-species study. -/
def c2agg : Agg := c2rows.foldl updateAgg defaultAgg

/-- Counterexample to C2 as stated: with 8 distinct non-empty names first
encountered in the order w8, w7, ..., w1, the finalized aggregate retains
the 5 lexicographically smallest names w1..w5 (BTreeSet iteration order,
joined into the display field), not the first 5 encountered w8..w4: the
first-encountered name w8 is in the claimed first-five list but is dropped
by the code, so even the retained name sets differ. -/
theorem species_cap_c2_counterexample :
    foldStudies c2rows "PRJ1" = some c2agg ∧
      specFirstFiveEncountered c2rows "PRJ1" = ["w8", "w7", "w6", "w5", "w4"] ∧
      speciesRetained c2agg = ["w1", "w2", "w3", "w4", "w5"] ∧
      (finalizeAgg "PRJ1" c2agg).species = "w1, w2, w3, w4, w5" ∧
      "w8" ∈ specFirstFiveEncountered c2rows "PRJ1" ∧
      "w8" ∉ speciesRetained c2agg ∧
      speciesRetained c2agg ≠ specFirstFiveEncountered c2rows "PRJ1" := by
  have hval : c2agg.species.val =
      (["w1", "w2", "w3", "w4", "w5", "w6", "w7", "w8"] : List String) := by decide
  have hsort : c2agg.species.sort (· ≤ ·) =
      ["w1", "w2", "w3", "w4", "w5", "w6", "w7", "w8"] := by
    refine finset_sort_eq _ _ hval ?_
    simp [List.sorted_cons]
    decide
  have hret : speciesRetained c2agg = ["w1", "w2", "w3", "w4", "w5"] := by
    unfold speciesRetained
    rw [hsort]
    rfl
  refine ⟨?_, by decide, hret, ?_, by decide, ?_, ?_⟩
  · exact foldStudies_eq_some c2rows "PRJ1" (c2row "w8")
      [c2row "w7", c2row "w6", c2row "w5", c2row "w4", c2row "w3",
       c2row "w2", c2row "w1"] rfl
  · have hfin : (finalizeAgg "PRJ1" c2agg).species = joinComma (speciesRetained c2agg) :=
      rfl
    rw [hfin, hret]
    rfl
  · rw [hret]
    decide
  · rw [hret]
    decide

/-- Witness for C2 (amended): the eight-species study retains exactly 5
names, the finalized display field is their comma join, and the retained
name w1 is strictly below the dropped species name w6. -/
theorem species_cap_c2_witness :
    (speciesRetained c2agg).length = 5 ∧
      (finalizeAgg "PRJ1" c2agg).species = joinComma (speciesRetained c2agg) ∧
      ("w1" : String) < "w6" := by
  have hval : c2agg.species.val =
      (["w1", "w2", "w3", "w4", "w5", "w6", "w7", "w8"] : List String) := by decide
  have hsort : c2agg.species.sort (· ≤ ·) =
      ["w1", "w2", "w3", "w4", "w5", "w6", "w7", "w8"] := by
    refine finset_sort_eq _ _ hval ?_
    simp [List.sorted_cons]
    decide
  have hret : speciesRetained c2agg = ["w1", "w2", "w3", "w4", "w5"] := by
    unfold speciesRetained
    rw [hsort]
    rfl
  have h := species_cap_c2 c2rows "PRJ1" c2agg
    (foldStudies_eq_some c2rows "PRJ1" (c2row "w8")
      [c2row "w7", c2row "w6", c2row "w5", c2row "w4", c2row "w3",
       c2row "w2", c2row "w1"] rfl)
    (by decide)
  refine ⟨h.1, h.2.2.2.1, ?_⟩
  exact h.2.2.2.2.2.1 "w1" (by rw [hret]; decide) "w6" (by decide)
    (by rw [hret]; decide)

/-- Counterexample to C9 as stated: the byte-size fields fastq_bytes and
submitted_bytes are not among the fields the client requests from the
registry (and struct RunRecord has no such fields), so they cannot serve as
a fallback pair when computing output volume. -/
theorem bytes_c9_counterexample :
    "fastq_bytes" ∉ enaFields ∧ "submitted_bytes" ∉ enaFields := by
  constructor <;> decide

/-- C9 (amended): there are no byte-size fields: the requested field list
contains neither fastq_bytes nor submitted_bytes, and the only volume the
pipeline exports is gigabases, computed solely from the saturating sum of
the parsed base_count values scaled by 10^9 with one-decimal rounding. -/
theorem bytes_c9 :
    "fastq_bytes" ∉ enaFields ∧ "submitted_bytes" ∉ enaFields ∧
    (∀ (acc : String) (a : Agg),
      (finalizeAgg acc a).gigabases_num = roundTenth ((a.bases : Rat) / 1000000000)) ∧
    (∀ l : List RunRecord,
      (l.foldl updateAgg defaultAgg).bases = min ((l.filterMap rowBases).sum) U128MAX) := by
  refine ⟨by decide, by decide, fun acc a => rfl, fun l => ?_⟩
  have h := fold_bases l defaultAgg (Nat.zero_le _)
  simpa [defaultAgg] using h

/-- C10: a sample_accession that is absent or empty contributes nothing to
the distinct-sample set, a scientific_name that is absent or empty is never
added to the species set, and the exported biosample count is the number of
distinct non-empty sample accessions of the study (the usize-to-u32 cast is
the identity whenever that number fits in 32 bits). -/
theorem samples_c10 (rows : List RunRecord) (k : String) (a : Agg)
    (ha : foldStudies rows k = some a) :
    (∀ x, x ∈ a.samples ↔
      x ≠ "" ∧ ∃ r ∈ rowsOfStudy rows k, r.sample_accession = some x) ∧
    (∀ x ∈ a.species, x ≠ "") ∧
    (a.samples.card < 2 ^ 32 → (finalizeAgg k a).biosamples = a.samples.card) := by
  refine ⟨?_, ?_, ?_⟩
  · intro x
    rw [foldStudies_some_eq rows k a ha, fold_samples_mem]
    have : x ∈ defaultAgg.samples ↔ False := by simp [defaultAgg]
    rw [this, false_or]
  · intro x hx
    exact ((agg_species_char rows k a ha x).mp hx).1
  · intro h
    simp only [finalizeAgg]
    exact Nat.mod_eq_of_lt h

/-- Rows of one study: a real sample accession, an empty one, an absent one,
and a duplicate of the real one. -/
def c10rows : List RunRecord :=
  [⟨none, "PRJ1", some "SAMEA1", none, none, none, some "Homo sapiens", none, none⟩,
   ⟨none, "PRJ1", some "", none, none, none, some "", none, none⟩,
   ⟨none, "PRJ1", none, none, none, none, none, none, none⟩,
   ⟨none, "PRJ1", some "SAMEA1", none, none, none, none, none, none⟩]

/-- The aggregate of the sample-count study. -/
def c10agg : Agg := c10rows.foldl updateAgg defaultAgg

/-- Witness for C10: with one real accession (twice), one empty and one
absent, the exported biosample count is exactly 1. -/
theorem samples_c10_witness :
    (finalizeAgg "PRJ1" c10agg).biosamples = c10agg.samples.card ∧
      c10agg.samples.card = 1 := by
  have h := samples_c10 c10rows "PRJ1" c10agg
    (foldStudies_eq_some c10rows "PRJ1"
      ⟨none, "PRJ1", some "SAMEA1", none, none, none, some "Homo sapiens", none, none⟩
      [⟨none, "PRJ1", some "", none, none, none, some "", none, none⟩,
       ⟨none, "PRJ1", none, none, none, none, none, none, none⟩,
       ⟨none, "PRJ1", some "SAMEA1", none, none, none, none, none, none⟩] rfl)
    |>.2.2 (by decide)
  exact ⟨h, by decide⟩

end Herring
